import Mathlib

/-!
Verification of the uid2-client-python core: the encryption-key collection
(`keys.py`) and the v2 request/response envelope codec (`client.py`),
shallowly embedded in Lean.

Modelling conventions:
* Python `datetime` values are modelled as `Int` instants (the code only
  compares them with `<=`, `<`, `>`, which is order-isomorphic).
* `bytes` values are modelled as `List Nat` (each entry one byte).
* Python exceptions are modelled by `Except PyError`.
* External collaborators (AES-GCM via `_encrypt_gcm`/`_decrypt_gcm` from the
  absent `encryption` module, `base64`, `os.urandom`) are passed in as
  explicit function / value parameters.
-/

namespace UID2

/-- Python exceptions raised by the modelled code paths. -/
inductive PyError where
  | valueError (msg : String)
  | keyError
  | typeError
deriving DecidableEq

/-- Python slice `l[a:b]` for `a ≤ b` (total: short lists give short slices). -/
def pySlice {α : Type} (l : List α) (a b : Nat) : List α :=
  (l.drop a).take (b - a)

/-- Python `int.to_bytes(x, len, 'big')` (for `x < 256^len`). -/
def toBytesBE (len : Nat) (x : Nat) : List Nat :=
  match len with
  | 0 => []
  | l + 1 => toBytesBE l (x / 256) ++ [x % 256]

/-- Big-endian byte decoding, inverse of `toBytesBE`. -/
def fromBytesBE (bs : List Nat) : Nat :=
  bs.foldl (fun a b => a * 256 + b) 0

/-! ## keys.py : EncryptionKey -/

/-- `EncryptionKey` (keys.py lines 35-54): value record for one key. -/
structure EncryptionKey where
  key_id : Int
  site_id : Int
  created : Int
  activates : Int
  expires : Int
  secret : List Nat
deriving DecidableEq

/-- `EncryptionKey.is_active` (keys.py line 93-95):
`self._activates <= now and now < self._expires`. -/
def EncryptionKey.is_active (k : EncryptionKey) (now : Int) : Bool :=
  decide (k.activates ≤ now) && decide (now < k.expires)

/-- `_SiteKeyActivatesList` (keys.py lines 98-110): the read-only view of a
site-key list exposing, at index `i`, `site_keys[i].activates`; extensionally
this is the mapped list of activation times. -/
def siteKeyActivatesList (site_keys : List EncryptionKey) : List Int :=
  site_keys.map (·.activates)

/-! ## keys.py : collection construction -/

/-- Python `dict` assignment `d[k] = v` on an association list (overwrite). -/
def dictSet (m : List (Int × EncryptionKey)) (kid : Int) (v : EncryptionKey) :
    List (Int × EncryptionKey) :=
  match m with
  | [] => [(kid, v)]
  | (k, w) :: rest => if k = kid then (kid, v) :: rest else (k, w) :: dictSet rest kid v

/-- Python `dict.get(k)` on an association list. -/
def dictGet (m : List (Int × EncryptionKey)) (kid : Int) : Option EncryptionKey :=
  match m with
  | [] => none
  | (k, w) :: rest => if k = kid then some w else dictGet rest kid

/-- Python `d.setdefault(sid, []).append(key)` on an association list. -/
def bucketAppend (m : List (Int × List EncryptionKey)) (sid : Int) (k : EncryptionKey) :
    List (Int × List EncryptionKey) :=
  match m with
  | [] => [(sid, [k])]
  | (s, ks) :: rest =>
      if s = sid then (s, ks ++ [k]) :: rest else (s, ks) :: bucketAppend rest sid k

/-- Python `d.get(sid)` on the site-bucket association list. -/
def bucketsGet (m : List (Int × List EncryptionKey)) (sid : Int) :
    Option (List EncryptionKey) :=
  match m with
  | [] => none
  | (s, ks) :: rest => if s = sid then some ks else bucketsGet rest sid

/-- Stable insertion of a key into a list sorted ascending by `activates`. -/
def orderedInsertKey (a : EncryptionKey) : List EncryptionKey → List EncryptionKey
  | [] => [a]
  | b :: l =>
      if a.activates ≤ b.activates then a :: b :: l else b :: orderedInsertKey a l

/-- `site_keys.sort(key=lambda x: x.activates)` (keys.py line 131): Python's
sort is a stable sort by `activates`; the stable sort result is unique, so the
stable insertion sort is extensionally the same function. -/
def sortKeysByActivates : List EncryptionKey → List EncryptionKey
  | [] => []
  | a :: l => orderedInsertKey a (sortKeysByActivates l)

/-- State threaded through the ingestion loop of
`EncryptionKeysCollection.__init__` (keys.py lines 120-129). -/
structure IngestState where
  keys : List (Int × EncryptionKey)
  keys_by_site : List (Int × List EncryptionKey)
  latest_expires : Option Int

/-- `if self._latest_expires is None or key.expires > self._latest_expires`
(keys.py line 128). -/
def updateLatest (cur : Option Int) (e : Int) : Option Int :=
  match cur with
  | none => some e
  | some v => if e > v then some e else some v

/-- One iteration of the `for key in keys` loop (keys.py lines 124-129). -/
def ingestKey (st : IngestState) (key : EncryptionKey) : IngestState :=
  { keys := dictSet st.keys key.key_id key,
    keys_by_site :=
      if key.site_id > 0 then bucketAppend st.keys_by_site key.site_id key
      else st.keys_by_site,
    latest_expires := updateLatest st.latest_expires key.expires }

/-- `EncryptionKeysCollection`: the three attributes built by `__init__`. -/
structure EncryptionKeysCollection where
  keys : List (Int × EncryptionKey)
  keys_by_site : List (Int × List EncryptionKey)
  latest_expires : Option Int
deriving DecidableEq

/-- `EncryptionKeysCollection.__init__(keys)` (keys.py lines 120-131):
ingest every key, then sort each site bucket by activation time. -/
def EncryptionKeysCollection.init (keys : List EncryptionKey) : EncryptionKeysCollection :=
  let st := keys.foldl ingestKey ⟨[], [], none⟩
  { keys := st.keys,
    keys_by_site := st.keys_by_site.map (fun p => (p.1, sortKeysByActivates p.2)),
    latest_expires := st.latest_expires }

/-- `__getitem__` (keys.py lines 142-143): `self._keys[key_id]`, raising
`KeyError` when the id is unknown (Python dict indexing semantics). -/
def EncryptionKeysCollection.getitem (c : EncryptionKeysCollection) (kid : Int) :
    Except PyError EncryptionKey :=
  match dictGet c.keys kid with
  | some k => .ok k
  | none => .error .keyError

/-- `get` (keys.py lines 146-148): `self._keys.get(key_id, default)`. -/
def EncryptionKeysCollection.get (c : EncryptionKeysCollection) (kid : Int)
    (default : Option EncryptionKey) : Option EncryptionKey :=
  match dictGet c.keys kid with
  | some k => some k
  | none => default

/-! ## keys.py : active-site-key lookup -/

/-- One pass of `bisect_right`'s loop body (CPython `bisect.bisect_right`),
with explicit fuel; fuel `hi - lo` always suffices since the gap shrinks
every iteration. -/
def bisectRightAuxF : Nat → List Int → Int → Nat → Nat → Nat
  | 0, _, _, lo, _ => lo
  | fuel + 1, a, x, lo, hi =>
      if lo < hi then
        if x < a.getD ((lo + hi) / 2) 0 then bisectRightAuxF fuel a x lo ((lo + hi) / 2)
        else bisectRightAuxF fuel a x ((lo + hi) / 2 + 1) hi
      else lo

/-- CPython `bisect.bisect_right(a, x)`: binary search for the rightmost
insertion point of `x` in `a`. -/
def bisect_right (a : List Int) (x : Int) : Nat :=
  bisectRightAuxF a.length a x 0 a.length

/-- The `while i > 0` backward walk of `get_active_site_key`
(keys.py lines 175-180), recursing on the index `i`. -/
def walkBack (site_keys : List EncryptionKey) (now : Int) : Nat → Option EncryptionKey
  | 0 => none
  | i + 1 =>
      match site_keys[i]? with
      | some key => if key.is_active now then some key else walkBack site_keys now i
      | none => walkBack site_keys now i

/-- Lines 174-180 of keys.py: bisect the activates view, then walk backward
to the first still-active key. -/
def bisectWalk (site_keys : List EncryptionKey) (now : Int) : Option EncryptionKey :=
  walkBack site_keys now (bisect_right (siteKeyActivatesList site_keys) now)

/-- `get_active_site_key` (keys.py lines 161-180). -/
def EncryptionKeysCollection.get_active_site_key (c : EncryptionKeysCollection)
    (site_id : Int) (now : Int) : Option EncryptionKey :=
  match bucketsGet c.keys_by_site site_id with
  | none => none
  | some site_keys =>
      if site_keys.length = 0 then none
      else bisectWalk site_keys now

/-- `valid` (keys.py lines 183-187):
`self._latest_expires is not None and self._latest_expires > now`. -/
def EncryptionKeysCollection.valid (c : EncryptionKeysCollection) (now : Int) : Bool :=
  match c.latest_expires with
  | none => false
  | some e => decide (e > now)

/-- The site bucket a lookup consults (`[]` when no bucket exists). -/
def siteBucket (c : EncryptionKeysCollection) (sid : Int) : List EncryptionKey :=
  (bucketsGet c.keys_by_site sid).getD []

/-- One step of the naive reference scan: replace the best candidate when
the scanned key is active and activated no earlier than the current best. -/
def naiveStep (now : Int) (best : Option EncryptionKey) (k : EncryptionKey) :
    Option EncryptionKey :=
  if k.is_active now &&
      (match best with
       | none => true
       | some b => decide (b.activates ≤ k.activates)) then some k else best

/-- Reference lookup written from the spec's words: linearly scan the whole
bucket and pick, among keys with `activates ≤ now` and `now < expires`, the
one with the latest activation time (the later-listed key among equally
activated ones), `none` when there is none. -/
def naiveActiveSiteKey (site_keys : List EncryptionKey) (now : Int) :
    Option EncryptionKey :=
  site_keys.foldl (naiveStep now) none

/-! ## client.py : the v2 envelope codec

`_encrypt_gcm` / `_decrypt_gcm` (from the external `encryption` module) and
`base64.b64encode` / `base64.b64decode` are passed in as abstract byte-string
transformers; `os.urandom(8)` is modelled by taking the nonce as an input. -/

/-- `_make_v2_request` (client.py lines 100-108). `now_ms` models
`int(now.timestamp() * 1000)`; the result pairs the base64-encoded envelope
with the nonce. -/
def make_v2_request (encrypt_gcm b64encode : List Nat → List Nat)
    (now_ms : Nat) (nonce : List Nat) : List Nat × List Nat :=
  let payload := toBytesBE 8 now_ms ++ nonce
  let envelope := toBytesBE 1 1 ++ encrypt_gcm payload
  (b64encode envelope, nonce)

/-- `_parse_v2_response` (client.py lines 110-114). -/
def parse_v2_response (decrypt_gcm b64decode : List Nat → List Nat)
    (encrypted nonce : List Nat) : Except PyError (List Nat) :=
  let payload := decrypt_gcm (b64decode encrypted)
  if nonce ≠ pySlice payload 8 16 then .error (.valueError "nonce mismatch")
  else .ok (payload.drop 16)

/-- The round-trip property exactly as the spec states it: for every AEAD
pair where decryption inverts encryption, and every base64 pair where
decoding inverts encoding, decoding the bytes produced by `encode(now)` with
the nonce returned by that same call succeeds, and the echoed nonce (bytes
[8:16) of the recovered plaintext) equals the generated nonce. -/
def roundTripClaim : Prop :=
  ∀ (enc dec b64e b64d : List Nat → List Nat) (now_ms : Nat) (nonce : List Nat),
    (∀ p, dec (enc p) = p) →
    (∀ b, b64d (b64e b) = b) →
    nonce.length = 8 →
    ∃ p, parse_v2_response dec b64d (make_v2_request enc b64e now_ms nonce).1 nonce = .ok p ∧
      pySlice (dec (b64d (make_v2_request enc b64e now_ms nonce).1)) 8 16 = nonce

/-! ## client.py : key-list parsing -/

/-- `_make_dt(timestamp)` (client.py lines 20-21): epoch seconds to a UTC
instant; instants are modelled by their epoch value. -/
def make_dt (timestamp : Int) : Int := timestamp

/-- One key record of the `/v2/key/sharing` response body (client.py
lines 78-88): integer id, optional site id, epoch-second times, base64
secret, optional keyset id. -/
structure KeyRecord where
  id : Int
  site_id : Option Int
  created : Int
  activates : Int
  expires : Int
  secret_b64 : List Nat
  keyset_id : Option Int
deriving DecidableEq

/-- The response body consumed by `_parse_keys_json` (client.py lines 76-91). -/
structure RespBody where
  keys : List KeyRecord
  caller_site_id : Int
  master_keyset_id : Int
  default_keyset_id : Option Int
  token_expiry_seconds : Int

/-- Number of parameters, `self` excluded, of `EncryptionKey.__init__` as
defined in keys.py line 47. -/
def encryptionKeyInitParams : Nat := 6

/-- Number of parameters, `self` excluded, of
`EncryptionKeysCollection.__init__` as defined in keys.py line 120. -/
def collectionInitParams : Nat := 1

/-- Number of positional arguments client.py lines 82-88 passes to
`EncryptionKey(...)` (id, site_id, created, activates, expires, secret,
keyset_id). -/
def encryptionKeyCallArgs : Nat := 7

/-- Number of positional arguments client.py lines 90-91 passes to
`EncryptionKeysCollection(...)` (keys, caller_site_id, master_keyset_id,
default_keyset_id, token_expiry_seconds). -/
def collectionCallArgs : Nat := 5

/-- The `EncryptionKey(...)` call of client.py lines 82-88 against the
constructor of keys.py line 47: calling a fixed-arity Python function with a
different number of positional arguments raises `TypeError`; otherwise the
key described by the record is built (site id defaulting to -1, epoch
seconds converted by `_make_dt`, secret base64-decoded). -/
def buildEncryptionKey (b64decode : List Nat → List Nat) (r : KeyRecord) :
    Except PyError EncryptionKey :=
  if encryptionKeyCallArgs = encryptionKeyInitParams then
    .ok { key_id := r.id, site_id := r.site_id.getD (-1),
          created := make_dt r.created, activates := make_dt r.activates,
          expires := make_dt r.expires, secret := b64decode r.secret_b64 }
  else .error .typeError

/-- The `for key in resp_body["keys"]` loop of client.py lines 78-89: the
first raised exception aborts the whole parse. -/
def buildKeys (b64decode : List Nat → List Nat) :
    List KeyRecord → Except PyError (List EncryptionKey)
  | [] => .ok []
  | r :: rs =>
      match buildEncryptionKey b64decode r with
      | .error e => .error e
      | .ok k =>
          match buildKeys b64decode rs with
          | .error e => .error e
          | .ok ks => .ok (k :: ks)

/-- `_parse_keys_json` (client.py lines 76-91): build one key per record,
then call `EncryptionKeysCollection(keys, caller_site_id, master_keyset_id,
default_keyset_id, token_expiry_seconds)` — five positional arguments
against the one-parameter constructor of keys.py line 120. -/
def parse_keys_json (b64decode : List Nat → List Nat) (body : RespBody) :
    Except PyError EncryptionKeysCollection :=
  match buildKeys b64decode body.keys with
  | .error e => .error e
  | .ok keys =>
      if collectionCallArgs = collectionInitParams then
        .ok (EncryptionKeysCollection.init keys)
      else .error .typeError

/-! ## Concrete values used in witnesses and examples -/

/-- K1 of the spec's active-key-selection example: activates 10, expires 20. -/
def exK1 : EncryptionKey := ⟨1, 1, 0, 10, 20, []⟩

/-- K2 of the spec's active-key-selection example: activates 15, expires 25. -/
def exK2 : EncryptionKey := ⟨2, 1, 0, 15, 25, []⟩

/-- A key not scoped to any site. -/
def exK0 : EncryptionKey := ⟨3, -1, 0, 0, 100, []⟩

/-- The collection holding the spec example's site-1 keys plus an unscoped key. -/
def exampleColl : EncryptionKeysCollection :=
  EncryptionKeysCollection.init [exK1, exK2, exK0]

/-- A sample key record for exercising `parse_keys_json`. -/
def exRecord : KeyRecord := ⟨1, some 2, 0, 0, 10, [7, 7], none⟩

/-- A sample well-formed response body with one key record. -/
def exBody : RespBody := ⟨[exRecord], 11, 1, none, 2592000⟩

/-! # Theorems -/

/-! ## Byte-encoding helper lemmas -/

theorem toBytesBE_length (len x : Nat) : (toBytesBE len x).length = len := by
  induction len generalizing x with
  | zero => rfl
  | succ l ih => simp [toBytesBE, ih]

theorem fromBytesBE_append_singleton (bs : List Nat) (b : Nat) :
    fromBytesBE (bs ++ [b]) = fromBytesBE bs * 256 + b := by
  simp [fromBytesBE, List.foldl_append]

theorem fromBytesBE_toBytesBE (len x : Nat) (h : x < 256 ^ len) :
    fromBytesBE (toBytesBE len x) = x := by
  induction len generalizing x with
  | zero =>
      have : x = 0 := by simpa using h
      simp [this, toBytesBE, fromBytesBE]
  | succ l ih =>
      have hdiv : x / 256 < 256 ^ l := by
        rw [Nat.div_lt_iff_lt_mul (by omega)]
        calc x < 256 ^ (l + 1) := h
        _ = 256 ^ l * 256 := by rw [Nat.pow_succ]
      rw [toBytesBE, fromBytesBE_append_singleton, ih _ hdiv]
      omega

theorem pySlice_append_left {α : Type} (a b : List α) (h : a.length = 8) :
    pySlice (a ++ b) 0 8 = a := by
  rw [pySlice]
  simp only [Nat.sub_zero, List.drop_zero, ← h]
  exact List.take_left a b

theorem pySlice_append_right {α : Type} (a b : List α)
    (ha : a.length = 8) (hb : b.length = 8) :
    pySlice (a ++ b) 8 16 = b := by
  rw [pySlice]
  have hd : (a ++ b).drop 8 = b := by
    rw [← ha]
    exact List.drop_left a b
  rw [hd, show 16 - 8 = 8 from rfl, ← hb, List.take_length]

/-! ## C2 : the nonce check of `_parse_v2_response` -/

/-- C2: for every decrypted response plaintext and every expected nonce,
`_parse_v2_response` fails with the nonce-mismatch `ValueError` exactly when
bytes [8:16) of the plaintext differ from the expected nonce, and on success
returns the payload bytes [16:] of the plaintext; on mismatch no payload is
returned. -/
theorem C2_parse_v2_response_nonce_check :
    ∀ (dec b64d : List Nat → List Nat) (encrypted nonce : List Nat),
      (parse_v2_response dec b64d encrypted nonce = .error (.valueError "nonce mismatch") ↔
        nonce ≠ pySlice (dec (b64d encrypted)) 8 16) ∧
      ∀ p, parse_v2_response dec b64d encrypted nonce = .ok p →
        nonce = pySlice (dec (b64d encrypted)) 8 16 ∧ p = (dec (b64d encrypted)).drop 16 := by
  intro dec b64d encrypted nonce
  rw [parse_v2_response]
  by_cases h : nonce = pySlice (dec (b64d encrypted)) 8 16
  · rw [if_neg (not_not_intro h)]
    refine ⟨⟨fun hcontra => Except.noConfusion hcontra, fun hne => absurd h hne⟩, ?_⟩
    intro p hp
    refine ⟨h, ?_⟩
    cases hp
    rfl
  · rw [if_pos h]
    refine ⟨⟨fun _ => h, fun _ => rfl⟩, ?_⟩
    intro p hp
    exact Except.noConfusion hp

/-- Witness for C2 at a concrete plaintext of 20 bytes: the matching nonce
succeeds with payload bytes [16:], and a non-matching nonce yields the
nonce-mismatch error. -/
theorem C2_parse_v2_response_nonce_check_witness :
    ([8, 9, 10, 11, 12, 13, 14, 15] =
        pySlice ((fun _ => [0, 1, 2, 3, 4, 5, 6, 7, 8, 9, 10, 11, 12, 13, 14, 15, 16, 17, 18, 19])
          ((fun x => x) ([] : List Nat))) 8 16 ∧
      [16, 17, 18, 19] =
        ((fun _ => [0, 1, 2, 3, 4, 5, 6, 7, 8, 9, 10, 11, 12, 13, 14, 15, 16, 17, 18, 19])
          ((fun x => x) ([] : List Nat))).drop 16) ∧
    parse_v2_response
      (fun _ => [0, 1, 2, 3, 4, 5, 6, 7, 8, 9, 10, 11, 12, 13, 14, 15, 16, 17, 18, 19])
      (fun x => x) [] [0, 0, 0, 0, 0, 0, 0, 0] = .error (.valueError "nonce mismatch") := by
  constructor
  · exact (C2_parse_v2_response_nonce_check
      (fun _ => [0, 1, 2, 3, 4, 5, 6, 7, 8, 9, 10, 11, 12, 13, 14, 15, 16, 17, 18, 19])
      (fun x => x) [] [8, 9, 10, 11, 12, 13, 14, 15]).2 [16, 17, 18, 19] rfl
  · exact (C2_parse_v2_response_nonce_check
      (fun _ => [0, 1, 2, 3, 4, 5, 6, 7, 8, 9, 10, 11, 12, 13, 14, 15, 16, 17, 18, 19])
      (fun x => x) [] [0, 0, 0, 0, 0, 0, 0, 0]).1.mpr (by decide)

/-! ## C10 : short plaintexts always hit the nonce-mismatch branch -/

/-- C10: for every decrypted plaintext shorter than 16 bytes and every 8-byte
expected nonce, `_parse_v2_response` raises the nonce-mismatch error rather
than any out-of-range error: the slices are total, the [8:16) slice of such a
plaintext is shorter than 8 bytes and so can never equal the 8-byte nonce. -/
theorem C10_short_plaintext_mismatch :
    ∀ (dec b64d : List Nat → List Nat) (encrypted nonce : List Nat),
      (dec (b64d encrypted)).length < 16 → nonce.length = 8 →
      (pySlice (dec (b64d encrypted)) 8 16).length < 8 ∧
      parse_v2_response dec b64d encrypted nonce = .error (.valueError "nonce mismatch") := by
  intro dec b64d encrypted nonce hlen hn
  have hslice : (pySlice (dec (b64d encrypted)) 8 16).length < 8 := by
    rw [pySlice, List.length_take, List.length_drop]
    omega
  refine ⟨hslice, ?_⟩
  rw [parse_v2_response, if_pos]
  intro h
  rw [h] at hn
  omega

/-- Witness for C10: the empty plaintext with an all-zero 8-byte nonce. -/
theorem C10_short_plaintext_mismatch_witness :
    (([] : List Nat).length < 16 ∧ ([0, 0, 0, 0, 0, 0, 0, 0] : List Nat).length = 8) ∧
    parse_v2_response (fun _ => []) (fun x => x) [] [0, 0, 0, 0, 0, 0, 0, 0] =
      .error (.valueError "nonce mismatch") :=
  ⟨⟨by decide, by decide⟩,
    (C10_short_plaintext_mismatch (fun _ => []) (fun x => x) [] [0, 0, 0, 0, 0, 0, 0, 0]
      (by decide) (by decide)).2⟩

/-! ## C8 : the shape of `_make_v2_request` -/

/-- C8: for every instant whose millisecond value fits in 8 unsigned bytes,
`_make_v2_request` returns the base64 encoding of a one-byte version marker
of value 1 followed by the AEAD ciphertext of the 16-byte plaintext whose
first 8 bytes are the milliseconds as an unsigned big-endian integer and
whose last 8 bytes are the generated nonce, and it returns that nonce
alongside the encoded bytes. -/
theorem C8_make_v2_request_format :
    ∀ (encrypt_gcm b64encode : List Nat → List Nat) (now_ms : Nat) (nonce : List Nat),
      now_ms < 256 ^ 8 → nonce.length = 8 →
      make_v2_request encrypt_gcm b64encode now_ms nonce =
        (b64encode (toBytesBE 1 1 ++ encrypt_gcm (toBytesBE 8 now_ms ++ nonce)), nonce) ∧
      toBytesBE 1 1 = [1] ∧
      (toBytesBE 8 now_ms ++ nonce).length = 16 ∧
      pySlice (toBytesBE 8 now_ms ++ nonce) 0 8 = toBytesBE 8 now_ms ∧
      fromBytesBE (pySlice (toBytesBE 8 now_ms ++ nonce) 0 8) = now_ms ∧
      pySlice (toBytesBE 8 now_ms ++ nonce) 8 16 = nonce := by
  intro enc b64e now_ms nonce hms hn
  have hl : (toBytesBE 8 now_ms).length = 8 := toBytesBE_length 8 now_ms
  have hsl : pySlice (toBytesBE 8 now_ms ++ nonce) 0 8 = toBytesBE 8 now_ms :=
    pySlice_append_left _ _ hl
  refine ⟨rfl, rfl, ?_, hsl, ?_, pySlice_append_right _ _ hl hn⟩
  · rw [List.length_append, hl, hn]
  · rw [hsl]
    exact fromBytesBE_toBytesBE 8 now_ms hms

/-- Witness for C8 at timestamp 1700000000000 ms and a concrete nonce. -/
theorem C8_make_v2_request_format_witness :
    (1700000000000 < 256 ^ 8 ∧ ([1, 2, 3, 4, 5, 6, 7, 8] : List Nat).length = 8) ∧
    make_v2_request (fun x => x) (fun x => x) 1700000000000 [1, 2, 3, 4, 5, 6, 7, 8] =
      ((fun x => x)
        (toBytesBE 1 1 ++ (fun x => x) (toBytesBE 8 1700000000000 ++ [1, 2, 3, 4, 5, 6, 7, 8])),
        [1, 2, 3, 4, 5, 6, 7, 8]) ∧
    fromBytesBE (pySlice (toBytesBE 8 1700000000000 ++ [1, 2, 3, 4, 5, 6, 7, 8]) 0 8) =
      1700000000000 := by
  have h := C8_make_v2_request_format (fun x => x) (fun x => x) 1700000000000
    [1, 2, 3, 4, 5, 6, 7, 8] (by norm_num) (by decide)
  exact ⟨⟨by norm_num, by decide⟩, h.1, h.2.2.2.2.1⟩

/-! ## C3 : the spec's round-trip property -/

/-- C3 counterexample: the round-trip claim fails on the code. `encode`
prepends the version byte 1 to the ciphertext, but `decode` feeds the whole
base64-decoded blob — version byte included — to the AEAD decryption
function, so the inversion assumption says nothing about what comes out.
Witness pair: `enc := (0 :: ·)`, `dec := List.drop 1` (a conforming pair:
`dec (enc p) = p` for all `p`), identity base64, timestamp 0 ms and nonce
`[1,...,8]`; decoding then sees plaintext `0 :: timestamp ++ nonce`, whose
[8:16) slice is `[0,1,2,3,4,5,6,7] ≠ [1,...,8]`, and fails with the
nonce-mismatch error instead of succeeding. -/
theorem C3_roundtrip_counterexample : ¬ roundTripClaim := by
  intro h
  obtain ⟨p, hp, -⟩ := h (fun l => 0 :: l) (fun l => l.drop 1) (fun x => x) (fun x => x)
    0 [1, 2, 3, 4, 5, 6, 7, 8] (fun _ => rfl) (fun _ => rfl) rfl
  have herr : parse_v2_response (fun l => l.drop 1) (fun x => x)
      (make_v2_request (fun l => 0 :: l) (fun x => x) 0 [1, 2, 3, 4, 5, 6, 7, 8]).1
      [1, 2, 3, 4, 5, 6, 7, 8] = .error (.valueError "nonce mismatch") := rfl
  exact Except.noConfusion (herr.symm.trans hp)

/-- C3 amended: the round trip does hold for the envelope without its
version byte: for every AEAD pair where decryption inverts encryption and
every base64 pair where decoding inverts encoding, decoding the base64 of
the bare ciphertext of `timestamp ‖ nonce` with the same nonce succeeds
(with an empty payload, the request plaintext being exactly 16 bytes), and
the echoed nonce — bytes [8:16) of the recovered plaintext — equals the
nonce that was encrypted. -/
theorem C3_roundtrip_amended :
    ∀ (enc dec b64e b64d : List Nat → List Nat) (now_ms : Nat) (nonce : List Nat),
      (∀ p, dec (enc p) = p) → (∀ b, b64d (b64e b) = b) → nonce.length = 8 →
      parse_v2_response dec b64d (b64e (enc (toBytesBE 8 now_ms ++ nonce))) nonce = .ok [] ∧
      pySlice (dec (b64d (b64e (enc (toBytesBE 8 now_ms ++ nonce))))) 8 16 = nonce := by
  intro enc dec b64e b64d now_ms nonce hdec hb64 hn
  have hplain : dec (b64d (b64e (enc (toBytesBE 8 now_ms ++ nonce)))) =
      toBytesBE 8 now_ms ++ nonce := by rw [hb64, hdec]
  have hsl : pySlice (toBytesBE 8 now_ms ++ nonce) 8 16 = nonce :=
    pySlice_append_right _ _ (toBytesBE_length 8 now_ms) hn
  have hlen : (toBytesBE 8 now_ms ++ nonce).length = 16 := by
    rw [List.length_append, toBytesBE_length, hn]
  constructor
  · rw [parse_v2_response, hplain, hsl, if_neg (by simp), show (16 : Nat) = (toBytesBE 8 now_ms ++ nonce).length from hlen.symm, List.drop_length]
  · rw [hplain, hsl]

/-- Witness for the amended C3 with `enc := (0 :: ·)`, `dec := List.drop 1`
and identity base64 at timestamp 0 and nonce `[1,...,8]`. -/
theorem C3_roundtrip_amended_witness :
    parse_v2_response (fun l => l.drop 1) (fun x => x)
      ((fun x => x) ((fun l => 0 :: l) (toBytesBE 8 0 ++ [1, 2, 3, 4, 5, 6, 7, 8])))
      [1, 2, 3, 4, 5, 6, 7, 8] = .ok [] ∧
    pySlice ((fun l => l.drop 1)
        ((fun x => x) ((fun x => x) ((fun l => 0 :: l) (toBytesBE 8 0 ++ [1, 2, 3, 4, 5, 6, 7, 8])))))
      8 16 = [1, 2, 3, 4, 5, 6, 7, 8] :=
  C3_roundtrip_amended (fun l => 0 :: l) (fun l => l.drop 1) (fun x => x) (fun x => x)
    0 [1, 2, 3, 4, 5, 6, 7, 8] (fun _ => rfl) (fun _ => rfl) rfl

/-! ## Collection-construction lemmas -/

theorem foldl_ingest_keys (keys : List EncryptionKey) :
    ∀ st : IngestState,
      (keys.foldl ingestKey st).keys =
        keys.foldl (fun m k => dictSet m k.key_id k) st.keys := by
  induction keys with
  | nil => intro st; rfl
  | cons k ks ih =>
      intro st
      rw [List.foldl_cons, List.foldl_cons, ih]
      rfl

theorem foldl_ingest_buckets (keys : List EncryptionKey) :
    ∀ st : IngestState,
      (keys.foldl ingestKey st).keys_by_site =
        keys.foldl (fun m k => if k.site_id > 0 then bucketAppend m k.site_id k else m)
          st.keys_by_site := by
  induction keys with
  | nil => intro st; rfl
  | cons k ks ih =>
      intro st
      rw [List.foldl_cons, List.foldl_cons, ih]
      rfl

theorem foldl_ingest_latest (keys : List EncryptionKey) :
    ∀ st : IngestState,
      (keys.foldl ingestKey st).latest_expires =
        keys.foldl (fun o k => updateLatest o k.expires) st.latest_expires := by
  induction keys with
  | nil => intro st; rfl
  | cons k ks ih =>
      intro st
      rw [List.foldl_cons, List.foldl_cons, ih]
      rfl

theorem init_keys_def (keys : List EncryptionKey) :
    (EncryptionKeysCollection.init keys).keys =
      keys.foldl (fun m k => dictSet m k.key_id k) [] :=
  foldl_ingest_keys keys ⟨[], [], none⟩

theorem init_buckets_def (keys : List EncryptionKey) :
    (EncryptionKeysCollection.init keys).keys_by_site =
      (keys.foldl (fun m k => if k.site_id > 0 then bucketAppend m k.site_id k else m) []).map
        (fun p => (p.1, sortKeysByActivates p.2)) := by
  show ((keys.foldl ingestKey ⟨[], [], none⟩).keys_by_site).map
      (fun p => (p.1, sortKeysByActivates p.2)) = _
  rw [foldl_ingest_buckets]

theorem init_latest_def (keys : List EncryptionKey) :
    (EncryptionKeysCollection.init keys).latest_expires =
      keys.foldl (fun o k => updateLatest o k.expires) none :=
  foldl_ingest_latest keys ⟨[], [], none⟩

theorem dictGet_dictSet (m : List (Int × EncryptionKey)) (k1 k2 : Int) (v : EncryptionKey) :
    dictGet (dictSet m k1 v) k2 = if k1 = k2 then some v else dictGet m k2 := by
  induction m with
  | nil => rfl
  | cons p rest ih =>
      obtain ⟨k, w⟩ := p
      by_cases h1 : k = k1
      · subst h1
        by_cases h2 : k = k2 <;> simp [dictSet, dictGet, h2]
      · by_cases h2 : k = k2
        · subst h2
          have hne : k1 ≠ k := fun hc => h1 hc.symm
          simp [dictSet, dictGet, h1, hne]
        · simp [dictSet, dictGet, h1, h2, ih]

theorem dictGet_foldl_none (kid : Int) (keys : List EncryptionKey) :
    ∀ m, dictGet m kid = none → (∀ k ∈ keys, k.key_id ≠ kid) →
      dictGet (keys.foldl (fun m k => dictSet m k.key_id k) m) kid = none := by
  induction keys with
  | nil => intro m h _; exact h
  | cons k ks ih =>
      intro m h hk
      rw [List.foldl_cons]
      refine ih _ ?_ (fun x hx => hk x (List.mem_cons_of_mem _ hx))
      rw [dictGet_dictSet, if_neg (hk k (List.mem_cons_self k ks))]
      exact h

theorem bucketsGet_bucketAppend_ne (m : List (Int × List EncryptionKey)) (k : EncryptionKey)
    {s sid : Int} (h : s ≠ sid) :
    bucketsGet (bucketAppend m s k) sid = bucketsGet m sid := by
  induction m with
  | nil =>
      show (if s = sid then some [k] else none) = none
      rw [if_neg h]
  | cons p rest ih =>
      obtain ⟨s1, ks⟩ := p
      by_cases h1 : s1 = s
      · subst h1
        simp only [bucketAppend, if_pos rfl, bucketsGet]
        rw [if_neg h, if_neg h]
      · simp only [bucketAppend, if_neg h1, bucketsGet]
        rw [ih]

theorem bucketsGet_bucketAppend_self (m : List (Int × List EncryptionKey)) (s : Int)
    (k : EncryptionKey) :
    bucketsGet (bucketAppend m s k) s = some ((bucketsGet m s).getD [] ++ [k]) := by
  induction m with
  | nil => simp [bucketAppend, bucketsGet]
  | cons p rest ih =>
      obtain ⟨s1, ks⟩ := p
      by_cases h1 : s1 = s
      · subst h1
        simp [bucketAppend, bucketsGet]
      · simp [bucketAppend, bucketsGet, h1, ih]

theorem bucketsGet_foldl_none (sid : Int) (keys : List EncryptionKey) :
    ∀ m, bucketsGet m sid = none → (∀ k ∈ keys, k.site_id ≠ sid) →
      bucketsGet
        (keys.foldl (fun m k => if k.site_id > 0 then bucketAppend m k.site_id k else m) m)
        sid = none := by
  induction keys with
  | nil => intro m h _; exact h
  | cons k ks ih =>
      intro m h hk
      rw [List.foldl_cons]
      refine ih _ ?_ (fun x hx => hk x (List.mem_cons_of_mem _ hx))
      by_cases hs : k.site_id > 0
      · rw [if_pos hs, bucketsGet_bucketAppend_ne _ _ (hk k (List.mem_cons_self k ks))]
        exact h
      · rw [if_neg hs]
        exact h

theorem bucketsGet_map_sort (m : List (Int × List EncryptionKey)) (sid : Int) :
    bucketsGet (m.map (fun p => (p.1, sortKeysByActivates p.2))) sid =
      (bucketsGet m sid).map sortKeysByActivates := by
  induction m with
  | nil => rfl
  | cons p rest ih =>
      obtain ⟨s, ks⟩ := p
      by_cases h : s = sid <;> simp [bucketsGet, h, ih]

theorem foldl_updateLatest_some (keys : List EncryptionKey) :
    ∀ v : Int, ∃ m, keys.foldl (fun o k => updateLatest o k.expires) (some v) = some m ∧
      (m = v ∨ ∃ k ∈ keys, k.expires = m) ∧ v ≤ m ∧ ∀ k ∈ keys, k.expires ≤ m := by
  induction keys with
  | nil => exact fun v => ⟨v, rfl, Or.inl rfl, le_refl v, by simp⟩
  | cons k ks ih =>
      intro v
      rw [List.foldl_cons]
      have hstep : updateLatest (some v) k.expires =
          some (if k.expires > v then k.expires else v) := by
        rw [updateLatest]
        split_ifs <;> rfl
      rw [hstep]
      obtain ⟨m, hm, hmem, hle, hub⟩ := ih (if k.expires > v then k.expires else v)
      refine ⟨m, hm, ?_, ?_, ?_⟩
      · rcases hmem with h | ⟨k1, hk1, he⟩
        · by_cases hc : k.expires > v
          · exact Or.inr ⟨k, List.mem_cons_self k ks, by rw [h, if_pos hc]⟩
          · exact Or.inl (by rw [h, if_neg hc])
        · exact Or.inr ⟨k1, List.mem_cons_of_mem _ hk1, he⟩
      · refine le_trans ?_ hle
        split_ifs with hc <;> omega
      · intro k1 hk1
        rcases List.mem_cons.mp hk1 with h | h
        · subst h
          refine le_trans ?_ hle
          split_ifs with hc <;> omega
        · exact hub k1 h

/-! ## C5 : `valid(now)` -/

/-- C5: `valid(now)` returns true iff the collection was built from a
non-empty key sequence whose maximum `expires` is strictly greater than
`now`; a collection built from an empty sequence is never valid. -/
theorem C5_valid_iff_latest_expires :
    ∀ (keys : List EncryptionKey) (now : Int),
      ((EncryptionKeysCollection.init keys).valid now = true ↔
        ∃ m, (∃ k ∈ keys, k.expires = m) ∧ (∀ k ∈ keys, k.expires ≤ m) ∧ now < m) ∧
      (EncryptionKeysCollection.init []).valid now = false := by
  intro keys now
  refine ⟨?_, rfl⟩
  cases keys with
  | nil =>
      constructor
      · intro h
        exact Bool.noConfusion h
      · rintro ⟨m, ⟨k, hk, -⟩, -, -⟩
        exact absurd hk (List.not_mem_nil k)
  | cons k ks =>
      have hfold : (EncryptionKeysCollection.init (k :: ks)).latest_expires =
          ks.foldl (fun o k => updateLatest o k.expires) (some k.expires) := by
        rw [init_latest_def, List.foldl_cons]
        rfl
      obtain ⟨m, hm, hmem, hle, hub⟩ := foldl_updateLatest_some ks k.expires
      have hlat : (EncryptionKeysCollection.init (k :: ks)).latest_expires = some m :=
        hfold.trans hm
      have hv : (EncryptionKeysCollection.init (k :: ks)).valid now = decide (m > now) := by
        rw [EncryptionKeysCollection.valid, hlat]
      rw [hv]
      constructor
      · intro h
        have hnow : now < m := of_decide_eq_true h
        refine ⟨m, ?_, ?_, hnow⟩
        · rcases hmem with h1 | ⟨k1, hk1, he⟩
          · exact ⟨k, List.mem_cons_self k ks, h1.symm⟩
          · exact ⟨k1, List.mem_cons_of_mem _ hk1, he⟩
        · intro k1 hk1
          rcases List.mem_cons.mp hk1 with h1 | h1
          · subst h1
            exact hle
          · exact hub k1 h1
      · rintro ⟨m1, ⟨k1, hk1, he1⟩, hub1, hlt1⟩
        have h1 : m1 ≤ m := by
          rw [← he1]
          rcases List.mem_cons.mp hk1 with h2 | h2
          · subst h2
            exact hle
          · exact hub k1 h2
        exact decide_eq_true (by omega)

/-! ## C7 : unknown-id lookups -/

/-- C7 counterexample: the claim extends "never raises" to `__getitem__`
(keys.py lines 142-143), but `self._keys[key_id]` raises `KeyError` for an
unknown key id: indexing the empty collection at id 5 yields `KeyError`,
not an absent result. -/
theorem C7_getitem_raises_counterexample :
    (EncryptionKeysCollection.init []).getitem 5 = .error .keyError := rfl

/-- C7 (amended): `get(key_id)` returns the supplied default and
`get_active_site_key` returns none for unknown ids, and neither raises;
`__getitem__`, however, raises `KeyError` for an unknown key id. -/
theorem C7_unknown_lookups_amended :
    ∀ (keys : List EncryptionKey) (kid sid now : Int) (d : Option EncryptionKey),
      ((∀ k ∈ keys, k.key_id ≠ kid) →
        (EncryptionKeysCollection.init keys).get kid d = d ∧
        (EncryptionKeysCollection.init keys).getitem kid = .error .keyError) ∧
      ((∀ k ∈ keys, k.site_id ≠ sid) →
        (EncryptionKeysCollection.init keys).get_active_site_key sid now = none) := by
  intro keys kid sid now d
  constructor
  · intro h
    have hg : dictGet (EncryptionKeysCollection.init keys).keys kid = none := by
      rw [init_keys_def]
      exact dictGet_foldl_none kid keys [] rfl h
    rw [EncryptionKeysCollection.get, EncryptionKeysCollection.getitem, hg]
    exact ⟨rfl, rfl⟩
  · intro h
    have hb : bucketsGet (EncryptionKeysCollection.init keys).keys_by_site sid = none := by
      rw [init_buckets_def, bucketsGet_map_sort, bucketsGet_foldl_none sid keys [] rfl h]
      rfl
    rw [EncryptionKeysCollection.get_active_site_key, hb]

/-- Witness for the amended C7: id 99 and site 99 are unknown to the
collection holding only K1. -/
theorem C7_unknown_lookups_amended_witness :
    ((EncryptionKeysCollection.init [exK1]).get 99 none = none ∧
      (EncryptionKeysCollection.init [exK1]).getitem 99 = .error .keyError) ∧
    (EncryptionKeysCollection.init [exK1]).get_active_site_key 99 0 = none := by
  have h := C7_unknown_lookups_amended [exK1] 99 99 0 none
  exact ⟨h.1 (by decide), h.2 (by decide)⟩

/-! ## C9 : `_parse_keys_json` against this keys.py -/

/-- C9: against the `keys.py` in this snapshot, `_parse_keys_json` can never
build the described collection: client.py passes 7 positional arguments to
`EncryptionKey` (keys.py accepts 6) and 5 to `EncryptionKeysCollection`
(keys.py accepts 1), so every parse — whether or not the body has key
records — raises `TypeError` instead. -/
theorem C9_parse_keys_json_type_error :
    ∀ (b64decode : List Nat → List Nat) (body : RespBody),
      parse_keys_json b64decode body = .error .typeError := by
  intro b64d body
  obtain ⟨ks, _, _, _, _⟩ := body
  cases ks with
  | nil => rfl
  | cons r rs => rfl

/-! ## Generic list helpers for the lookup proofs -/

theorem drop_eq_getD_cons {α : Type} (d : α) {a : List α} {n : Nat} (h : n < a.length) :
    a.drop n = a.getD n d :: a.drop (n + 1) := by
  rw [List.getD_eq_getElem?_getD, List.getElem?_eq_getElem h, Option.getD_some]
  exact List.drop_eq_getElem_cons h

theorem take_eq_append_getD {α : Type} (d : α) {a : List α} {n : Nat} (h : n < a.length) :
    a.take (n + 1) = a.take n ++ [a.getD n d] := by
  rw [List.getD_eq_getElem?_getD, List.getElem?_eq_getElem h, Option.getD_some,
    List.take_succ, List.getElem?_eq_getElem h]
  rfl

theorem find?_append_of_forall_neg {α : Type} {p : α → Bool} {l1 : List α} (l2 : List α)
    (h : ∀ x ∈ l1, p x = false) : (l1 ++ l2).find? p = l2.find? p := by
  induction l1 with
  | nil => rfl
  | cons a l ih =>
      rw [List.cons_append,
        List.find?_cons_of_neg _ (by simp [h a (List.mem_cons_self a l)])]
      exact ih fun x hx => h x (List.mem_cons_of_mem _ hx)

theorem find?_append_some {α : Type} {p : α → Bool} {l1 : List α} (l2 : List α) {a : α}
    (h : l1.find? p = some a) : (l1 ++ l2).find? p = some a := by
  induction l1 with
  | nil => exact Option.noConfusion h
  | cons b l ih =>
      by_cases hb : p b
      · rw [List.find?_cons_of_pos _ hb] at h
        rw [List.cons_append, List.find?_cons_of_pos _ hb]
        exact h
      · rw [List.find?_cons_of_neg _ hb] at h
        rw [List.cons_append, List.find?_cons_of_neg _ hb]
        exact ih h

theorem find?_split {α : Type} {p : α → Bool} {l : List α} {a : α}
    (h : l.find? p = some a) :
    ∃ l1 l2, l = l1 ++ a :: l2 ∧ ∀ x ∈ l1, p x = false := by
  induction l with
  | nil => exact Option.noConfusion h
  | cons b l ih =>
      by_cases hb : p b
      · rw [List.find?_cons_of_pos _ hb] at h
        cases h
        exact ⟨[], l, rfl, by simp⟩
      · rw [List.find?_cons_of_neg _ hb] at h
        obtain ⟨l1, l2, heq, hf⟩ := ih h
        refine ⟨b :: l1, l2, by rw [heq, List.cons_append], ?_⟩
        intro x hx
        rcases List.mem_cons.mp hx with h1 | h1
        · subst h1
          exact Bool.not_eq_true _ ▸ (by simpa using hb)
        · exact hf x h1

/-! ## The binary search (`bisect_right`) is correct on sorted input -/

theorem bisectRightAuxF_spec (a : List Int) (x : Int)
    (hs : List.Pairwise (· ≤ ·) a) :
    ∀ (fuel lo hi : Nat), lo ≤ hi → hi ≤ a.length → hi - lo ≤ fuel →
      (∀ v ∈ a.take lo, v ≤ x) → (∀ v ∈ a.drop hi, x < v) →
      lo ≤ bisectRightAuxF fuel a x lo hi ∧ bisectRightAuxF fuel a x lo hi ≤ hi ∧
      (∀ v ∈ a.take (bisectRightAuxF fuel a x lo hi), v ≤ x) ∧
      (∀ v ∈ a.drop (bisectRightAuxF fuel a x lo hi), x < v) := by
  intro fuel
  induction fuel with
  | zero =>
      intro lo hi h1 h2 h3 h4 h5
      have heq : hi = lo := by omega
      subst heq
      exact ⟨le_refl _, le_refl _, h4, h5⟩
  | succ fuel ih =>
      intro lo hi h1 h2 h3 h4 h5
      by_cases hlt : lo < hi
      · have hmid1 : lo ≤ (lo + hi) / 2 := by omega
        have hmid2 : (lo + hi) / 2 < hi := by omega
        have hmidlen : (lo + hi) / 2 < a.length := lt_of_lt_of_le hmid2 h2
        rw [bisectRightAuxF, if_pos hlt]
        by_cases hcmp : x < a.getD ((lo + hi) / 2) 0
        · rw [if_pos hcmp]
          have hdrop : ∀ v ∈ a.drop ((lo + hi) / 2), x < v := by
            intro v hv
            rw [drop_eq_getD_cons 0 hmidlen] at hv
            rcases List.mem_cons.mp hv with h6 | h6
            · rw [h6]
              exact hcmp
            · have hpw : List.Pairwise (· ≤ ·)
                  (a.getD ((lo + hi) / 2) 0 :: a.drop ((lo + hi) / 2 + 1)) := by
                rw [← drop_eq_getD_cons 0 hmidlen]
                exact List.Pairwise.sublist (List.drop_sublist _ _) hs
              exact lt_of_lt_of_le hcmp ((List.pairwise_cons.mp hpw).1 v h6)
          obtain ⟨r1, r2, r3, r4⟩ :=
            ih lo ((lo + hi) / 2) hmid1 (le_of_lt hmidlen) (by omega) h4 hdrop
          exact ⟨r1, le_trans r2 (le_of_lt hmid2), r3, r4⟩
        · rw [if_neg hcmp]
          have htake : ∀ v ∈ a.take ((lo + hi) / 2 + 1), v ≤ x := by
            intro v hv
            rw [take_eq_append_getD 0 hmidlen] at hv
            have hmx : a.getD ((lo + hi) / 2) 0 ≤ x := le_of_not_lt hcmp
            rcases List.mem_append.mp hv with h6 | h6
            · have hpw : List.Pairwise (· ≤ ·)
                  (a.take ((lo + hi) / 2) ++ [a.getD ((lo + hi) / 2) 0]) := by
                rw [← take_eq_append_getD 0 hmidlen]
                exact List.Pairwise.sublist (List.take_sublist _ _) hs
              have h7 := (List.pairwise_append.mp hpw).2.2 v h6 _ (List.mem_singleton.mpr rfl)
              exact le_trans h7 hmx
            · rw [List.mem_singleton.mp h6]
              exact hmx
          obtain ⟨r1, r2, r3, r4⟩ :=
            ih ((lo + hi) / 2 + 1) hi (by omega) h2 (by omega) htake h5
          exact ⟨by omega, r2, r3, r4⟩
      · rw [bisectRightAuxF, if_neg hlt]
        have heq : hi = lo := by omega
        subst heq
        exact ⟨le_refl _, le_refl _, h4, h5⟩

theorem bisect_right_partition (a : List Int) (x : Int)
    (hs : List.Pairwise (· ≤ ·) a) :
    bisect_right a x ≤ a.length ∧
    (∀ v ∈ a.take (bisect_right a x), v ≤ x) ∧
    (∀ v ∈ a.drop (bisect_right a x), x < v) := by
  have h := bisectRightAuxF_spec a x hs a.length 0 a.length (Nat.zero_le _) (le_refl _)
    (by omega) (by simp) (by simp [List.drop_length])
  exact ⟨h.2.1, h.2.2.1, h.2.2.2⟩

/-! ## The backward walk as a `find?` over the reversed prefix -/

theorem walkBack_eq_find? (ks : List EncryptionKey) (now : Int) :
    ∀ i, i ≤ ks.length →
      walkBack ks now i = ((ks.take i).reverse).find? (fun k => k.is_active now) := by
  intro i
  induction i with
  | zero => intro _; rfl
  | succ i ih =>
      intro h
      have hi : i < ks.length := h
      have htake : (ks.take (i + 1)).reverse = ks[i] :: (ks.take i).reverse := by
        rw [List.take_succ, List.getElem?_eq_getElem hi, List.reverse_append]
        rfl
      rw [walkBack, List.getElem?_eq_getElem hi, htake]
      show (if ks[i].is_active now = true then some ks[i] else walkBack ks now i) = _
      by_cases hact : ks[i].is_active now
      · rw [if_pos hact, @List.find?_cons_of_pos EncryptionKey
          (fun k => k.is_active now) ks[i] ((ks.take i).reverse) hact]
      · rw [if_neg hact, @List.find?_cons_of_neg EncryptionKey
          (fun k => k.is_active now) ks[i] ((ks.take i).reverse) hact]
        exact ih (le_of_lt hi)

theorem bisectWalk_eq_revFind {ks : List EncryptionKey} (now : Int)
    (hs : List.Pairwise (fun k1 k2 => k1.activates ≤ k2.activates) ks) :
    bisectWalk ks now = ks.reverse.find? (fun k => k.is_active now) := by
  have hms : List.Pairwise (· ≤ ·) (siteKeyActivatesList ks) := by
    rw [siteKeyActivatesList, List.pairwise_map]
    exact hs
  obtain ⟨hle, -, hdrop⟩ := bisect_right_partition (siteKeyActivatesList ks) now hms
  have hlen : (siteKeyActivatesList ks).length = ks.length := List.length_map _ _
  rw [bisectWalk,
    walkBack_eq_find? ks now (bisect_right (siteKeyActivatesList ks) now) (hlen ▸ hle)]
  have hsplit : ks.reverse =
      (ks.drop (bisect_right (siteKeyActivatesList ks) now)).reverse ++
        (ks.take (bisect_right (siteKeyActivatesList ks) now)).reverse := by
    rw [← List.reverse_append, List.take_append_drop]
  rw [hsplit, find?_append_of_forall_neg]
  intro k hk
  have hk2 : k ∈ ks.drop (bisect_right (siteKeyActivatesList ks) now) :=
    List.mem_reverse.mp hk
  have hmem : k.activates ∈ (siteKeyActivatesList ks).drop
      (bisect_right (siteKeyActivatesList ks) now) := by
    rw [siteKeyActivatesList, ← List.map_drop]
    exact List.mem_map_of_mem _ hk2
  have hlt := hdrop _ hmem
  rw [EncryptionKey.is_active]
  have hd : decide (k.activates ≤ now) = false := by
    rw [decide_eq_false_iff_not]
    omega
  rw [hd, Bool.false_and]

/-! ## The naive linear scan as a `find?` over the reversed bucket -/

theorem foldl_naiveStep_sorted (now : Int) :
    ∀ (ks : List EncryptionKey) (b : Option EncryptionKey),
      List.Pairwise (fun k1 k2 => k1.activates ≤ k2.activates) ks →
      (∀ k ∈ ks, ∀ bk, b = some bk → bk.activates ≤ k.activates) →
      ks.foldl (naiveStep now) b =
        match ks.reverse.find? (fun k => k.is_active now) with
        | some r => some r
        | none => b := by
  intro ks
  induction ks with
  | nil => intro b _ _; rfl
  | cons k rest ih =>
      intro b hs hb
      have hrev : (k :: rest).reverse = rest.reverse ++ [k] := by
        rw [List.reverse_cons]
      have hstep : naiveStep now b k = if k.is_active now then some k else b := by
        cases b with
        | none =>
            show (if k.is_active now && true then some k else none) = _
            rw [Bool.and_true]
        | some bk =>
            show (if k.is_active now && decide (bk.activates ≤ k.activates)
                then some k else some bk) = _
            rw [decide_eq_true (hb k (List.mem_cons_self k rest) bk rfl), Bool.and_true]
      rw [List.foldl_cons, hstep, hrev]
      by_cases hact : k.is_active now
      · rw [if_pos hact]
        have hpre : ∀ x ∈ rest, ∀ bk, some k = some bk → bk.activates ≤ x.activates := by
          intro x hx bk hbk
          cases hbk
          exact (List.pairwise_cons.mp hs).1 x hx
        rw [ih (some k) (List.pairwise_cons.mp hs).2 hpre]
        cases hfind : rest.reverse.find? (fun k => k.is_active now) with
        | some r => rw [find?_append_some _ hfind]
        | none =>
            rw [find?_append_of_forall_neg _
              (fun x hx => by simpa using (List.find?_eq_none.mp hfind) x hx),
              @List.find?_cons_of_pos EncryptionKey (fun x => x.is_active now) k [] hact]
      · rw [if_neg hact]
        have hpre : ∀ x ∈ rest, ∀ bk, b = some bk → bk.activates ≤ x.activates :=
          fun x hx => hb x (List.mem_cons_of_mem _ hx)
        rw [ih b (List.pairwise_cons.mp hs).2 hpre]
        cases hfind : rest.reverse.find? (fun k => k.is_active now) with
        | some r => rw [find?_append_some _ hfind]
        | none =>
            rw [find?_append_of_forall_neg _
              (fun x hx => by simpa using (List.find?_eq_none.mp hfind) x hx),
              @List.find?_cons_of_neg EncryptionKey (fun x => x.is_active now) k [] hact]
            rfl

theorem naive_eq_revFind {ks : List EncryptionKey} (now : Int)
    (hs : List.Pairwise (fun k1 k2 => k1.activates ≤ k2.activates) ks) :
    naiveActiveSiteKey ks now = ks.reverse.find? (fun k => k.is_active now) := by
  rw [naiveActiveSiteKey,
    foldl_naiveStep_sorted now ks none hs (fun k _ bk hbk => Option.noConfusion hbk)]
  cases ks.reverse.find? (fun k => k.is_active now) with
  | some r => rfl
  | none => rfl

/-! ## The insertion sort used for site buckets -/

theorem mem_orderedInsertKey (a x : EncryptionKey) (l : List EncryptionKey) :
    x ∈ orderedInsertKey a l ↔ x = a ∨ x ∈ l := by
  induction l with
  | nil => simp [orderedInsertKey]
  | cons b l ih =>
      rw [orderedInsertKey]
      by_cases h : a.activates ≤ b.activates
      · rw [if_pos h]
        simp [List.mem_cons]
      · rw [if_neg h]
        simp only [List.mem_cons, ih]
        tauto

theorem pairwise_orderedInsertKey (a : EncryptionKey) (l : List EncryptionKey)
    (h : List.Pairwise (fun k1 k2 => k1.activates ≤ k2.activates) l) :
    List.Pairwise (fun k1 k2 => k1.activates ≤ k2.activates) (orderedInsertKey a l) := by
  induction l with
  | nil => simp [orderedInsertKey]
  | cons b l ih =>
      rw [orderedInsertKey]
      obtain ⟨hbl, hl⟩ := List.pairwise_cons.mp h
      by_cases hc : a.activates ≤ b.activates
      · rw [if_pos hc]
        rw [List.pairwise_cons]
        refine ⟨?_, h⟩
        intro x hx
        rcases List.mem_cons.mp hx with h1 | h1
        · rw [h1]
          exact hc
        · exact le_trans hc (hbl x h1)
      · rw [if_neg hc]
        rw [List.pairwise_cons]
        refine ⟨?_, ih hl⟩
        intro x hx
        rcases (mem_orderedInsertKey a x l).mp hx with h1 | h1
        · rw [h1]
          omega
        · exact hbl x h1

theorem sorted_sortKeysByActivates (l : List EncryptionKey) :
    List.Pairwise (fun k1 k2 => k1.activates ≤ k2.activates) (sortKeysByActivates l) := by
  induction l with
  | nil => simp [sortKeysByActivates]
  | cons a l ih => exact pairwise_orderedInsertKey a _ ih

theorem mem_sortKeysByActivates (x : EncryptionKey) (l : List EncryptionKey) :
    x ∈ sortKeysByActivates l ↔ x ∈ l := by
  induction l with
  | nil => simp [sortKeysByActivates]
  | cons a l ih =>
      rw [sortKeysByActivates, mem_orderedInsertKey]
      simp only [List.mem_cons, ih]

/-! ## Site buckets of a built collection are sorted -/

theorem init_bucket_sorted (keys : List EncryptionKey) (sid : Int)
    {b : List EncryptionKey}
    (h : bucketsGet (EncryptionKeysCollection.init keys).keys_by_site sid = some b) :
    List.Pairwise (fun k1 k2 => k1.activates ≤ k2.activates) b := by
  rw [init_buckets_def, bucketsGet_map_sort] at h
  obtain ⟨raw, -, hraw⟩ := Option.map_eq_some'.mp h
  rw [← hraw]
  exact sorted_sortKeysByActivates raw

theorem siteBucket_sorted (keys : List EncryptionKey) (sid : Int) :
    List.Pairwise (fun k1 k2 => k1.activates ≤ k2.activates)
      (siteBucket (EncryptionKeysCollection.init keys) sid) := by
  rw [siteBucket]
  cases h : bucketsGet (EncryptionKeysCollection.init keys).keys_by_site sid with
  | none => exact List.Pairwise.nil
  | some b => exact init_bucket_sorted keys sid h

/-- The lookup, on any built collection, is the first active key of the
reversed site bucket. -/
theorem gask_eq_revFind (keys : List EncryptionKey) (sid now : Int) :
    (EncryptionKeysCollection.init keys).get_active_site_key sid now =
      ((siteBucket (EncryptionKeysCollection.init keys) sid).reverse).find?
        (fun k => k.is_active now) := by
  rw [EncryptionKeysCollection.get_active_site_key, siteBucket]
  cases h : bucketsGet (EncryptionKeysCollection.init keys).keys_by_site sid with
  | none => rfl
  | some b =>
      rw [Option.getD_some]
      show (if b.length = 0 then none else bisectWalk b now) = _
      by_cases hb : b.length = 0
      · rw [if_pos hb, List.length_eq_zero.mp hb]
        rfl
      · rw [if_neg hb]
        exact bisectWalk_eq_revFind now (init_bucket_sorted keys sid h)

/-- A hit of the reversed-bucket `find?` has maximal activation time among
the active keys of a sorted bucket. -/
theorem revFind_maximal {b : List EncryptionKey} {now : Int} {k : EncryptionKey}
    (hs : List.Pairwise (fun k1 k2 => k1.activates ≤ k2.activates) b)
    (h : b.reverse.find? (fun x => x.is_active now) = some k) :
    ∀ x ∈ b, x.is_active now = true → x.activates ≤ k.activates := by
  obtain ⟨l1, l2, hsplit, hfail⟩ := find?_split h
  have hrev : List.Pairwise (fun k1 k2 => k2.activates ≤ k1.activates) b.reverse :=
    List.pairwise_reverse.mpr hs
  rw [hsplit] at hrev
  have hpost : ∀ x ∈ l2, x.activates ≤ k.activates := by
    have h1 := (List.pairwise_append.mp hrev).2.1
    exact fun x hx => (List.pairwise_cons.mp h1).1 x hx
  intro x hx hact
  have hx2 : x ∈ l1 ++ k :: l2 := by
    rw [← hsplit]
    exact List.mem_reverse.mpr hx
  rcases List.mem_append.mp hx2 with h1 | h1
  · rw [hfail x h1] at hact
    exact Bool.noConfusion hact
  · rcases List.mem_cons.mp h1 with h2 | h2
    · rw [h2]
    · exact hpost x h2

/-! ## C4 : the bisect-and-walk algorithm refines the naive scan -/

/-- C4: for every site bucket sorted ascending by `activates` and every time
`now`, the implemented algorithm — `bisect_right` over the activates view to
find the rightmost position with `activates ≤ now`, then walking backward to
the first key active at `now` — returns the same result as the naive
reference that linearly scans the whole bucket and picks, among keys with
`activates ≤ now` and `now < expires`, the one with the latest activation
time (none if there is none). -/
theorem C4_bisect_walk_refines_naive :
    ∀ (site_keys : List EncryptionKey) (now : Int),
      List.Pairwise (fun k1 k2 => k1.activates ≤ k2.activates) site_keys →
      bisectWalk site_keys now = naiveActiveSiteKey site_keys now := by
  intro ks now hs
  rw [bisectWalk_eq_revFind now hs, naive_eq_revFind now hs]

/-- Witness for C4 on the spec example's sorted bucket `[K1, K2]` at time
22, where both sides select K2 (K1 already expired). -/
theorem C4_bisect_walk_refines_naive_witness :
    List.Pairwise (fun k1 k2 => k1.activates ≤ k2.activates) [exK1, exK2] ∧
    bisectWalk [exK1, exK2] 22 = naiveActiveSiteKey [exK1, exK2] 22 ∧
    bisectWalk [exK1, exK2] 22 = some exK2 :=
  ⟨by decide, C4_bisect_walk_refines_naive [exK1, exK2] 22 (by decide), by decide⟩

/-! ## C1 : active-key selection -/

/-- C1: for every site id and time, `get_active_site_key` returns none when
no bucket exists for the site or no key of the bucket is active; otherwise
it returns a key of the bucket that is active and whose activation time is
the latest among the bucket's active keys. On the spec example — site 1
holding K1(activates 10, expires 20) and K2(activates 15, expires 25) — the
lookup returns K1 at 12, K2 at 17, K2 at 22, none at 30 and none at 5. -/
theorem C1_active_key_selection :
    (∀ (keys : List EncryptionKey) (sid now : Int),
      (siteBucket (EncryptionKeysCollection.init keys) sid = [] →
        (EncryptionKeysCollection.init keys).get_active_site_key sid now = none) ∧
      ((EncryptionKeysCollection.init keys).get_active_site_key sid now = none ↔
        ∀ k ∈ siteBucket (EncryptionKeysCollection.init keys) sid,
          k.is_active now = false) ∧
      (∀ k, (EncryptionKeysCollection.init keys).get_active_site_key sid now = some k →
        k ∈ siteBucket (EncryptionKeysCollection.init keys) sid ∧
        k.is_active now = true ∧
        ∀ x ∈ siteBucket (EncryptionKeysCollection.init keys) sid,
          x.is_active now = true → x.activates ≤ k.activates)) ∧
    exampleColl.get_active_site_key 1 12 = some exK1 ∧
    exampleColl.get_active_site_key 1 17 = some exK2 ∧
    exampleColl.get_active_site_key 1 22 = some exK2 ∧
    exampleColl.get_active_site_key 1 30 = none ∧
    exampleColl.get_active_site_key 1 5 = none := by
  constructor
  · intro keys sid now
    refine ⟨?_, ?_, ?_⟩
    · intro hemp
      rw [gask_eq_revFind, hemp]
      rfl
    · rw [gask_eq_revFind, List.find?_eq_none]
      constructor
      · intro h k hk
        have h2 := h k (List.mem_reverse.mpr hk)
        cases hval : k.is_active now with
        | false => rfl
        | true => exact absurd hval h2
      · intro h k hk
        rw [h k (List.mem_reverse.mp hk)]
        simp
    · intro k hk
      rw [gask_eq_revFind] at hk
      exact ⟨List.mem_reverse.mp (List.mem_of_find?_eq_some hk),
        @List.find?_some EncryptionKey (fun x => x.is_active now) k
          ((siteBucket (EncryptionKeysCollection.init keys) sid).reverse) hk,
        revFind_maximal (siteBucket_sorted keys sid) hk⟩
  · exact ⟨by decide, by decide, by decide, by decide, by decide⟩

/-- Witness for C1's general clauses on the example collection: at site 1
and time 17 the theorem yields that the returned K2 is a bucket member,
active, and dominates the active K1; at time 30 it forces every bucket key
(in particular K1) inactive. -/
theorem C1_active_key_selection_witness :
    (exK2 ∈ siteBucket exampleColl 1 ∧ exK2.is_active 17 = true ∧
      exK1.activates ≤ exK2.activates) ∧
    exK1.is_active 30 = false := by
  have h17 := (C1_active_key_selection.1 [exK1, exK2, exK0] 1 17).2.2 exK2 (by decide)
  have h30 := ((C1_active_key_selection.1 [exK1, exK2, exK0] 1 30).2.1).mp (by decide)
  exact ⟨⟨h17.1, h17.2.1, h17.2.2 exK1 (by decide) (by decide)⟩, h30 exK1 (by decide)⟩

/-! ## C6 : non-site keys are invisible to site lookup -/

theorem buckets_fold_inv (keys : List EncryptionKey) :
    ∀ m, (∀ s ks, bucketsGet m s = some ks → 0 < s ∧ ∀ k ∈ ks, k.site_id = s) →
      ∀ s ks,
        bucketsGet
          (keys.foldl (fun m k => if k.site_id > 0 then bucketAppend m k.site_id k else m) m)
          s = some ks →
        0 < s ∧ ∀ k ∈ ks, k.site_id = s := by
  induction keys with
  | nil => intro m h; exact h
  | cons k rest ih =>
      intro m h
      rw [List.foldl_cons]
      apply ih
      intro s ks hks
      by_cases hsid : k.site_id > 0
      · rw [if_pos hsid] at hks
        by_cases hss : k.site_id = s
        · subst hss
          have heq : ((bucketsGet m k.site_id).getD [] ++ [k]) = ks :=
            Option.some_inj.mp ((bucketsGet_bucketAppend_self m k.site_id k).symm.trans hks)
          subst heq
          refine ⟨hsid, ?_⟩
          intro x hx
          rcases List.mem_append.mp hx with h1 | h1
          · cases hold : bucketsGet m k.site_id with
            | none =>
                rw [hold] at h1
                exact absurd h1 (List.not_mem_nil x)
            | some old =>
                rw [hold, Option.getD_some] at h1
                exact (h _ _ hold).2 x h1
          · rw [List.mem_singleton.mp h1]
        · rw [bucketsGet_bucketAppend_ne _ _ hss] at hks
          exact h s ks hks
      · rw [if_neg hsid] at hks
        exact h s ks hks

/-- C6: during construction, keys with `site_id ≤ 0` are never placed in any
site bucket — every bucket of a built collection belongs to a positive site
id and holds only keys of that site id — so `get_active_site_key` can never
return a key whose `site_id ≤ 0`, whatever site id is queried. -/
theorem C6_nonsite_keys_never_returned :
    ∀ (keys : List EncryptionKey) (sid now : Int),
      (∀ b, bucketsGet (EncryptionKeysCollection.init keys).keys_by_site sid = some b →
        0 < sid ∧ ∀ k ∈ b, k.site_id = sid) ∧
      (∀ k, (EncryptionKeysCollection.init keys).get_active_site_key sid now = some k →
        k.site_id = sid ∧ 0 < k.site_id) := by
  intro keys sid now
  have hinv : ∀ b,
      bucketsGet (EncryptionKeysCollection.init keys).keys_by_site sid = some b →
      0 < sid ∧ ∀ k ∈ b, k.site_id = sid := by
    intro b hb
    rw [init_buckets_def, bucketsGet_map_sort] at hb
    obtain ⟨raw, hraw, hsort⟩ := Option.map_eq_some'.mp hb
    have h := buckets_fold_inv keys []
      (fun s ks hc => Option.noConfusion hc) sid raw hraw
    refine ⟨h.1, ?_⟩
    intro k hk
    rw [← hsort] at hk
    exact h.2 k ((mem_sortKeysByActivates k raw).mp hk)
  refine ⟨hinv, ?_⟩
  intro k hk
  rw [gask_eq_revFind] at hk
  have hmem : k ∈ siteBucket (EncryptionKeysCollection.init keys) sid :=
    List.mem_reverse.mp (List.mem_of_find?_eq_some hk)
  rw [siteBucket] at hmem
  cases hbg : bucketsGet (EncryptionKeysCollection.init keys).keys_by_site sid with
  | none =>
      rw [hbg] at hmem
      exact absurd hmem (List.not_mem_nil k)
  | some b =>
      rw [hbg, Option.getD_some] at hmem
      obtain ⟨hpos, hall⟩ := hinv b hbg
      have hsite := hall k hmem
      exact ⟨hsite, hsite ▸ hpos⟩

/-- Witness for C6 on the example collection (which contains the unscoped
key `exK0` with site_id −1): site 1's bucket is exactly `[K1, K2]`, both of
site id 1, and the key returned at time 17 has positive site id. -/
theorem C6_nonsite_keys_never_returned_witness :
    ((0 : Int) < 1 ∧ ∀ k ∈ [exK1, exK2], k.site_id = (1 : Int)) ∧
    (exK2.site_id = 1 ∧ 0 < exK2.site_id) := by
  have h := C6_nonsite_keys_never_returned [exK1, exK2, exK0] 1 17
  exact ⟨h.1 [exK1, exK2] (by decide), h.2 exK2 (by decide)⟩

end UID2
